import Mathlib

/-!
Verification of the trust-flow ranking program (src/main.rs).

The engine works on `f64`; we embed it in exact arithmetic over `ℚ`
(the spec's "real arithmetic" reading of the numeric claims), and the
exponential-decay model over an abstract function `E` which the theorems
instantiate with `Real.exp`.  Rust `Vec<f64>` buffers indexed by node are
modelled as total functions `ℕ → ℚ`; every statement only inspects
indices below `num_of_nodes`, where the model agrees with the vectors.
-/

namespace TrustFlow

/-- An edge of the trust graph (`struct Edge` in src/main.rs). -/
structure Edge where
  source : ℕ
  target : ℕ
  time_of_creation : ℕ
deriving DecidableEq, Repr

/-- `v[i] += x` on a node-indexed buffer. -/
def bump (v : ℕ → ℚ) (i : ℕ) (x : ℚ) : ℕ → ℚ :=
  Function.update v i (v i + x)

/-- The `initial_outflow_values` accumulation of `pagerank_variant`:
one unit per edge, credited to the edge's source (static out-degree). -/
def initial_outflow_values (edges : List Edge) : ℕ → ℚ :=
  edges.foldl (fun acc e => bump acc e.source 1) (fun _ => 0)

/-- The per-edge loop of one iteration of `pagerank_variant`: over the
zipped `(edge, weight)` pairs it accumulates the decayed outflow of each
source (first component) and adds each edge's damped contribution
`d * rank[src] * (w / initial_outflow[src])` to the new ranks (second
component). -/
def edge_pass (damping_factor : ℚ) (rank init_out : ℕ → ℚ)
    (pairs : List (Edge × ℚ)) (st : (ℕ → ℚ) × (ℕ → ℚ)) : (ℕ → ℚ) × (ℕ → ℚ) :=
  pairs.foldl
    (fun st p =>
      (bump st.1 p.1.source p.2,
       bump st.2 p.1.target
         (damping_factor * rank p.1.source * (p.2 / init_out p.1.source))))
    st

/-- The dangling-mass accumulation of `pagerank_variant`: a node with
positive static out-degree contributes its damped mass minus the
allocated share `d * rank * (outflow / initial_outflow)`; a node with no
outgoing edges contributes its whole damped mass. -/
def dangling_rank (num_of_nodes : ℕ) (damping_factor : ℚ)
    (rank init_out outflow : ℕ → ℚ) : ℚ :=
  ∑ i in Finset.range num_of_nodes,
    (if 0 < init_out i then
      damping_factor * rank i -
        damping_factor * rank i * (outflow i / init_out i)
    else damping_factor * rank i)

/-- One iteration of the main loop of `pagerank_variant`: teleportation
seeding, the per-edge pass, then uniform redistribution of the dangling
mass. -/
def pagerank_step (edges : List Edge) (weights : List ℚ) (num_of_nodes : ℕ)
    (damping_factor : ℚ) (teleportation_targets : List ℚ)
    (init_out : ℕ → ℚ) (rank : ℕ → ℚ) : ℕ → ℚ :=
  let seeded : ℕ → ℚ := fun i => (1 - damping_factor) * teleportation_targets.getD i 0
  let st := edge_pass damping_factor rank init_out (edges.zip weights) (fun _ => 0, seeded)
  fun i => st.2 i + dangling_rank num_of_nodes damping_factor rank init_out st.1 / (num_of_nodes : ℚ)

/-- `pagerank_variant` (src/main.rs): uniform initialization followed by
`num_of_iterations` synchronous iterations. -/
def pagerank_variant (edges : List Edge) (weights : List ℚ) (num_of_nodes : ℕ)
    (num_of_iterations : ℕ) (damping_factor : ℚ)
    (teleportation_targets : List ℚ) : ℕ → ℚ :=
  (pagerank_step edges weights num_of_nodes damping_factor teleportation_targets
      (initial_outflow_values edges))^[num_of_iterations]
    (fun _ => 1 / (num_of_nodes : ℚ))

/-- `v[i] += x` on a list-valued buffer; out of range, `List.set` leaves
the list unchanged. -/
def bumpList (v : List ℚ) (i : ℕ) (x : ℚ) : List ℚ :=
  v.set i (v.getD i 0 + x)

/-- The teleportation-target construction of `plot_scenario`
(src/main.rs): a uniform base share `(1 - f) / num_of_nodes` per node,
plus `f / expert_nodes.len()` added for every entry of `expert_nodes`. -/
def build_teleportation_targets (num_of_nodes : ℕ) (expert_nodes : List ℕ)
    (expert_teleport_fraction : ℚ) : List ℚ :=
  expert_nodes.foldl
    (fun v e => bumpList v e (expert_teleport_fraction / (expert_nodes.length : ℚ)))
    (List.replicate num_of_nodes ((1 - expert_teleport_fraction) / (num_of_nodes : ℚ)))

/-- `exponential_decay` (src/main.rs).  The Rust body computes the
`usize` difference `t1 - t0`, which panics on underflow (debug builds);
this partiality is modelled by returning `none` when `t1 < t0`.  The
exponential is abstracted as `E`; theorems instantiate `E := Real.exp`. -/
def exponential_decay {α : Type} [Field α] (E : α → α) (t1 t0 : ℕ)
    (weight_at_t0 decay_constant : α) : Option α :=
  if t1 < t0 then none
  else some (weight_at_t0 * E (-(((t1 - t0 : ℕ) : α)) * decay_constant))

/-- The per-edge decayed weight as computed at the call site in
`plot_scenario` (src/main.rs): `exponential_decay` guarded by
`e.time_of_creation <= time`, and `0.0` for a not-yet-created edge. -/
def decayed_weight {α : Type} [Field α] (E : α → α) (e : Edge) (time : ℕ)
    (decay_constant : α) : α :=
  if e.time_of_creation ≤ time then
    (exponential_decay E time e.time_of_creation 1 decay_constant).getD 0
  else 0

/-! ### Basic lemmas about the buffers -/

lemma bump_same (v : ℕ → ℚ) (i : ℕ) (x : ℚ) : bump v i x i = v i + x := by
  simp [bump]

lemma bump_other (v : ℕ → ℚ) (i j : ℕ) (x : ℚ) (h : j ≠ i) : bump v i x j = v j := by
  simp [bump, Function.update_noteq h]

lemma sum_bump {n i : ℕ} (v : ℕ → ℚ) (x : ℚ) (hi : i < n) :
    ∑ j in Finset.range n, bump v i x j = (∑ j in Finset.range n, v j) + x := by
  unfold bump
  rw [Finset.sum_update_of_mem (Finset.mem_range.mpr hi),
    Finset.sum_eq_sum_diff_singleton_add (Finset.mem_range.mpr hi) v]
  ring

lemma foldl_bump_source (edges : List Edge) (v : ℕ → ℚ) (i : ℕ) :
    edges.foldl (fun acc e => bump acc e.source 1) v i =
      v i + ((edges.countP fun e => e.source == i : ℕ) : ℚ) := by
  induction edges generalizing v with
  | nil => simp
  | cons e rest ih =>
      rw [List.foldl_cons, ih, List.countP_cons]
      by_cases h : e.source = i
      · rw [if_pos (by simpa using h), h, bump_same]
        push_cast
        ring
      · rw [if_neg (by simpa using h), bump_other _ _ _ _ (Ne.symm h)]
        push_cast
        ring

lemma initial_outflow_values_eq (edges : List Edge) (i : ℕ) :
    initial_outflow_values edges i =
      ((edges.countP fun e => e.source == i : ℕ) : ℚ) := by
  rw [initial_outflow_values, foldl_bump_source]
  simp

lemma initial_outflow_pos (edges : List Edge) (e : Edge) (he : e ∈ edges) :
    0 < initial_outflow_values edges e.source := by
  rw [initial_outflow_values_eq]
  have h : 0 < edges.countP fun e' => e'.source == e.source :=
    List.countP_pos_iff.mpr ⟨e, he, by simp⟩
  exact_mod_cast h

lemma initial_outflow_eq_zero (edges : List Edge) (i : ℕ)
    (h : ∀ e ∈ edges, e.source ≠ i) :
    initial_outflow_values edges i = 0 := by
  rw [initial_outflow_values_eq]
  have h0 : (edges.countP fun e => e.source == i) = 0 :=
    List.countP_eq_zero.mpr (by intro e he; simpa using h e he)
  rw [h0]
  norm_num

lemma sum_getD (l : List ℚ) :
    ∑ j in Finset.range l.length, l.getD j 0 = l.sum := by
  induction l with
  | nil => simp
  | cons a t ih =>
      rw [List.length_cons, Finset.sum_range_succ']
      simp only [List.getD_cons_succ, List.getD_cons_zero]
      rw [ih, List.sum_cons]
      ring

/-! ### Mass accounting across one iteration -/

lemma dangling_rank_zero (n : ℕ) (d : ℚ) (rank init_out : ℕ → ℚ) :
    dangling_rank n d rank init_out (fun _ => 0) =
      d * ∑ i in Finset.range n, rank i := by
  unfold dangling_rank
  rw [Finset.mul_sum]
  refine Finset.sum_congr rfl fun i _ => ?_
  by_cases h : 0 < init_out i <;> simp [h]

lemma dangling_rank_bump (n : ℕ) (d : ℚ) (rank init_out out : ℕ → ℚ)
    (s : ℕ) (w : ℚ) (hs : s < n) (hpos : 0 < init_out s) :
    dangling_rank n d rank init_out (bump out s w) =
      dangling_rank n d rank init_out out - d * rank s * (w / init_out s) := by
  have hmem : s ∈ Finset.range n := Finset.mem_range.mpr hs
  unfold dangling_rank
  rw [Finset.sum_eq_sum_diff_singleton_add hmem,
    Finset.sum_eq_sum_diff_singleton_add hmem
      (fun i => if 0 < init_out i then
        d * rank i - d * rank i * (out i / init_out i) else d * rank i)]
  have hcong : ∑ i in Finset.range n \ {s},
      (if 0 < init_out i then
        d * rank i - d * rank i * (bump out s w i / init_out i)
      else d * rank i) =
      ∑ i in Finset.range n \ {s},
      (if 0 < init_out i then
        d * rank i - d * rank i * (out i / init_out i)
      else d * rank i) := by
    refine Finset.sum_congr rfl fun i hi => ?_
    have hne : i ≠ s := by
      rcases Finset.mem_sdiff.mp hi with ⟨-, h2⟩
      simpa using h2
    rw [bump_other _ _ _ _ hne]
  rw [hcong, bump_same, if_pos hpos, if_pos hpos]
  have hne0 : init_out s ≠ 0 := ne_of_gt hpos
  field_simp
  ring

lemma edge_pass_invariant (d : ℚ) (rank init_out : ℕ → ℚ) (n : ℕ)
    (pairs : List (Edge × ℚ))
    (hp : ∀ p ∈ pairs, p.1.source < n ∧ p.1.target < n ∧ 0 < init_out p.1.source)
    (st : (ℕ → ℚ) × (ℕ → ℚ)) :
    (∑ j in Finset.range n, (edge_pass d rank init_out pairs st).2 j) +
      dangling_rank n d rank init_out (edge_pass d rank init_out pairs st).1 =
    (∑ j in Finset.range n, st.2 j) + dangling_rank n d rank init_out st.1 := by
  induction pairs generalizing st with
  | nil => rfl
  | cons p rest ih =>
      have hps := hp p (List.mem_cons_self p rest)
      have hstep : edge_pass d rank init_out (p :: rest) st =
          edge_pass d rank init_out rest
            (bump st.1 p.1.source p.2,
             bump st.2 p.1.target
               (d * rank p.1.source * (p.2 / init_out p.1.source))) := rfl
      rw [hstep, ih (fun q hq => hp q (List.mem_cons_of_mem p hq))]
      rw [sum_bump st.2 _ hps.2.1,
        dangling_rank_bump n d rank init_out st.1 p.1.source p.2 hps.1 hps.2.2]
      ring

lemma pagerank_step_sum (edges : List Edge) (weights : List ℚ) (n : ℕ) (d : ℚ)
    (teleport : List ℚ) (rank : ℕ → ℚ)
    (hn : 0 < n)
    (hsrc : ∀ e ∈ edges, e.source < n) (htgt : ∀ e ∈ edges, e.target < n) :
    ∑ j in Finset.range n,
      pagerank_step edges weights n d teleport (initial_outflow_values edges) rank j =
    (1 - d) * (∑ j in Finset.range n, teleport.getD j 0) +
      d * ∑ j in Finset.range n, rank j := by
  have hnz : (n : ℚ) ≠ 0 := Nat.cast_ne_zero.mpr hn.ne'
  have hp : ∀ p ∈ edges.zip weights,
      p.1.source < n ∧ p.1.target < n ∧
        0 < initial_outflow_values edges p.1.source := by
    intro p hpz
    have hmem := (List.of_mem_zip hpz).1
    exact ⟨hsrc p.1 hmem, htgt p.1 hmem, initial_outflow_pos edges p.1 hmem⟩
  unfold pagerank_step
  rw [Finset.sum_add_distrib, Finset.sum_const, Finset.card_range,
    nsmul_eq_mul, mul_div_cancel₀ _ hnz]
  rw [edge_pass_invariant d rank (initial_outflow_values edges) n
    (edges.zip weights) hp (fun _ => 0, fun i => (1 - d) * teleport.getD i 0)]
  rw [dangling_rank_zero, ← Finset.mul_sum]

lemma pagerank_sum_eq_one (edges : List Edge) (weights : List ℚ) (n k : ℕ)
    (d : ℚ) (teleport : List ℚ)
    (hn : 0 < n)
    (hsrc : ∀ e ∈ edges, e.source < n) (htgt : ∀ e ∈ edges, e.target < n)
    (htl : teleport.length = n) (hts : teleport.sum = 1) :
    ∑ j in Finset.range n, pagerank_variant edges weights n k d teleport j = 1 := by
  have hnz : (n : ℚ) ≠ 0 := Nat.cast_ne_zero.mpr hn.ne'
  have hgetD : ∑ j in Finset.range n, teleport.getD j 0 = 1 := by
    rw [← htl, sum_getD, hts]
  induction k with
  | zero =>
      simp only [pagerank_variant, Function.iterate_zero, id]
      rw [Finset.sum_const, Finset.card_range, nsmul_eq_mul]
      field_simp
  | succ k ih =>
      have hstep : pagerank_variant edges weights n (k + 1) d teleport =
          pagerank_step edges weights n d teleport (initial_outflow_values edges)
            (pagerank_variant edges weights n k d teleport) := by
        unfold pagerank_variant
        rw [Function.iterate_succ_apply']
      rw [hstep, pagerank_step_sum edges weights n d teleport _ hn hsrc htgt, ih,
        hgetD]
      ring

/-! ### Lemmas about the teleportation-target construction -/

lemma length_bumpList (v : List ℚ) (i : ℕ) (x : ℚ) :
    (bumpList v i x).length = v.length := by
  simp [bumpList]

lemma getD_bumpList_self (v : List ℚ) (i : ℕ) (x : ℚ) (h : i < v.length) :
    (bumpList v i x).getD i 0 = v.getD i 0 + x := by
  rw [bumpList, List.getD_eq_getElem _ _ (by simpa using h), List.getElem_set_self]

lemma getD_bumpList_ne (v : List ℚ) (i j : ℕ) (x : ℚ) (h : i ≠ j) :
    (bumpList v i x).getD j 0 = v.getD j 0 := by
  by_cases hj : j < v.length
  · rw [bumpList, List.getD_eq_getElem _ _ (by simpa using hj),
      List.getElem_set_ne h, List.getD_eq_getElem _ _ hj]
  · rw [bumpList, List.getD_eq_default _ _ (by simpa using Nat.le_of_not_lt hj),
      List.getD_eq_default _ _ (Nat.le_of_not_lt hj)]

lemma sum_bumpList (v : List ℚ) (i : ℕ) (x : ℚ) (h : i < v.length) :
    (bumpList v i x).sum = v.sum + x := by
  induction v generalizing i with
  | nil => simp at h
  | cons a t ih =>
      cases i with
      | zero =>
          simp only [bumpList, List.getD_cons_zero, List.set_cons_zero,
            List.sum_cons]
          ring
      | succ j =>
          have hj : j < t.length := by simpa using h
          have hstep : bumpList (a :: t) (j + 1) x = a :: bumpList t j x := by
            simp [bumpList]
          rw [hstep, List.sum_cons, List.sum_cons, ih j hj]
          ring

lemma foldl_bumpList_length (l : List ℕ) (c : ℚ) (v : List ℚ) :
    (l.foldl (fun v e => bumpList v e c) v).length = v.length := by
  induction l generalizing v with
  | nil => rfl
  | cons e rest ih => rw [List.foldl_cons, ih, length_bumpList]

lemma foldl_bumpList_getD (l : List ℕ) (c : ℚ) (v : List ℚ) (i : ℕ)
    (hi : i < v.length) :
    (l.foldl (fun v e => bumpList v e c) v).getD i 0 =
      v.getD i 0 + (l.count i : ℚ) * c := by
  induction l generalizing v with
  | nil => simp
  | cons e rest ih =>
      rw [List.foldl_cons, ih _ (by simpa [length_bumpList] using hi)]
      by_cases h : e = i
      · subst h
        rw [getD_bumpList_self _ _ _ hi, List.count_cons_self]
        push_cast
        ring
      · rw [getD_bumpList_ne _ _ _ _ h]
        have hc : (e :: rest).count i = rest.count i := by
          simp [List.count_cons, Ne.symm h]
        rw [hc]

lemma foldl_bumpList_sum (l : List ℕ) (c : ℚ) (v : List ℚ)
    (hr : ∀ e ∈ l, e < v.length) :
    (l.foldl (fun v e => bumpList v e c) v).sum = v.sum + (l.length : ℚ) * c := by
  induction l generalizing v with
  | nil => simp
  | cons e rest ih =>
      rw [List.foldl_cons,
        ih _ (fun e' he' => by
          rw [length_bumpList]
          exact hr e' (List.mem_cons_of_mem e he')),
        sum_bumpList _ _ _ (hr e (List.mem_cons_self e rest)), List.length_cons]
      push_cast
      ring

lemma build_teleportation_targets_length (n : ℕ) (experts : List ℕ) (f : ℚ) :
    (build_teleportation_targets n experts f).length = n := by
  rw [build_teleportation_targets, foldl_bumpList_length, List.length_replicate]

lemma build_teleportation_targets_getD (n : ℕ) (experts : List ℕ) (f : ℚ)
    (i : ℕ) (hi : i < n) :
    (build_teleportation_targets n experts f).getD i 0 =
      (1 - f) / (n : ℚ) + (experts.count i : ℚ) * (f / (experts.length : ℚ)) := by
  rw [build_teleportation_targets, foldl_bumpList_getD _ _ _ _ (by simpa using hi)]
  congr 1
  rw [List.getD_eq_getElem _ _ (by simpa using hi), List.getElem_replicate]

lemma build_teleportation_targets_sum (n : ℕ) (experts : List ℕ) (f : ℚ)
    (hn : 0 < n) (hrange : ∀ e ∈ experts, e < n)
    (hne : experts = [] → f = 0) :
    (build_teleportation_targets n experts f).sum = 1 := by
  have hnz : (n : ℚ) ≠ 0 := Nat.cast_ne_zero.mpr hn.ne'
  rw [build_teleportation_targets,
    foldl_bumpList_sum _ _ _ (by simpa using hrange), List.sum_replicate,
    nsmul_eq_mul]
  rcases eq_or_ne experts [] with h | h
  · subst h
    rw [hne rfl]
    field_simp
  · have hl : (experts.length : ℚ) ≠ 0 := by
      have : experts.length ≠ 0 := fun h0 => h (List.length_eq_zero.mp h0)
      exact_mod_cast this
    field_simp

/-! ### The claims -/

/-- C1: mass conservation — for every graph with a positive node count,
non-negative weights aligned with the edges, a teleport vector summing to
1, and a damping factor in [0, 1], the rank vector produced by
`pagerank_variant` sums to exactly 1 after the uniform initialization
(0 iterations) and after every iteration count. -/
theorem C1_mass_conservation (edges : List Edge) (weights : List ℚ) (n : ℕ)
    (d : ℚ) (teleport : List ℚ)
    (hn : 0 < n)
    (hlen : weights.length = edges.length)
    (hwnn : ∀ w ∈ weights, 0 ≤ w)
    (hsrc : ∀ e ∈ edges, e.source < n) (htgt : ∀ e ∈ edges, e.target < n)
    (htl : teleport.length = n) (hts : teleport.sum = 1)
    (hd0 : 0 ≤ d) (hd1 : d ≤ 1) :
    ∀ k : ℕ,
      ∑ j in Finset.range n, pagerank_variant edges weights n k d teleport j = 1 :=
  fun k => pagerank_sum_eq_one edges weights n k d teleport hn hsrc htgt htl hts

theorem C1_mass_conservation_witness :
    ∑ j in Finset.range 2, pagerank_variant [⟨0, 1, 0⟩] [1] 2 3 1 [1, 0] j = 1 :=
  C1_mass_conservation [⟨0, 1, 0⟩] [1] 2 1 [1, 0] (by decide) (by decide)
    (by decide) (by decide) (by decide) (by decide) (by simp) (by decide)
    (by decide) 3

/-- C2: worked scenario — 2 nodes, single edge 0→1 of weight 1, damping
factor 1/2, teleport vector [1/2, 1/2], one iteration from the uniform
initialization: the result is [3/8, 5/8] = [0.375, 0.625]. -/
theorem C2_worked_scenario :
    pagerank_variant [⟨0, 1, 0⟩] [1] 2 1 (1/2) [1/2, 1/2] 0 = 3/8 ∧
    pagerank_variant [⟨0, 1, 0⟩] [1] 2 1 (1/2) [1/2, 1/2] 1 = 5/8 := by
  constructor <;>
    norm_num [pagerank_variant, pagerank_step, edge_pass, dangling_rank, bump,
      initial_outflow_values, Function.update, Finset.sum_range_succ]

/-- C3: dangling-node redistribution — a node `i` with no outgoing edges
in the topology has static out-degree 0, the dangling pool of an
iteration contains its entire damped mass `d * rank i` as a summand, and
every node's new rank is the edge-seeded value plus the pool divided by
`num_of_nodes`. -/
theorem C3_dangling_redistribution (edges : List Edge) (weights : List ℚ)
    (n : ℕ) (d : ℚ) (teleport : List ℚ) (rank : ℕ → ℚ) (i : ℕ)
    (hi : i < n) (hnosrc : ∀ e ∈ edges, e.source ≠ i) :
    initial_outflow_values edges i = 0 ∧
    (∀ outflow : ℕ → ℚ,
      dangling_rank n d rank (initial_outflow_values edges) outflow =
        d * rank i +
          ∑ j in (Finset.range n).erase i,
            (if 0 < initial_outflow_values edges j then
              d * rank j -
                d * rank j * (outflow j / initial_outflow_values edges j)
            else d * rank j)) ∧
    (∀ j : ℕ,
      pagerank_step edges weights n d teleport (initial_outflow_values edges)
          rank j =
        (edge_pass d rank (initial_outflow_values edges) (edges.zip weights)
            (fun _ => 0, fun i2 => (1 - d) * teleport.getD i2 0)).2 j +
          dangling_rank n d rank (initial_outflow_values edges)
            (edge_pass d rank (initial_outflow_values edges) (edges.zip weights)
              (fun _ => 0, fun i2 => (1 - d) * teleport.getD i2 0)).1 /
            (n : ℚ)) := by
  have h0 := initial_outflow_eq_zero edges i hnosrc
  refine ⟨h0, fun outflow => ?_, fun j => rfl⟩
  rw [dangling_rank, ← Finset.add_sum_erase _ _ (Finset.mem_range.mpr hi), h0]
  simp

theorem C3_dangling_redistribution_witness :
    initial_outflow_values [⟨0, 1, 0⟩] 1 = 0 ∧
    dangling_rank 2 1 (fun _ => 1) (initial_outflow_values [⟨0, 1, 0⟩])
        (fun _ => 0) =
      1 * 1 +
        ∑ j in (Finset.range 2).erase 1,
          (if 0 < initial_outflow_values [⟨0, 1, 0⟩] j then
            1 * 1 - 1 * 1 * ((0 : ℚ) / initial_outflow_values [⟨0, 1, 0⟩] j)
          else 1 * 1) :=
  ⟨(C3_dangling_redistribution [⟨0, 1, 0⟩] [1] 2 1 [1, 0] (fun _ => 1) 1
      (by decide) (by decide)).1,
   (C3_dangling_redistribution [⟨0, 1, 0⟩] [1] 2 1 [1, 0] (fun _ => 1) 1
      (by decide) (by decide)).2.1 (fun _ => 0)⟩

/-- C4: edge-decay contract — the current weight is 0 before the edge's
creation time, and otherwise equals `1 * exp(-(t - creation) * k)`; at
`t = creation` it is exactly 1 for any decay constant. -/
theorem C4_decay_contract (e : Edge) (t : ℕ) (k : ℝ) :
    (t < e.time_of_creation → decayed_weight Real.exp e t k = 0) ∧
    (e.time_of_creation ≤ t →
      decayed_weight Real.exp e t k =
        1 * Real.exp (-((t : ℝ) - (e.time_of_creation : ℝ)) * k)) ∧
    decayed_weight Real.exp e e.time_of_creation k = 1 := by
  refine ⟨fun h => ?_, fun h => ?_, ?_⟩
  · rw [decayed_weight, if_neg (by omega)]
  · rw [decayed_weight, if_pos h, exponential_decay, if_neg (by omega),
      Option.getD_some, Nat.cast_sub h]
  · rw [decayed_weight, if_pos le_rfl, exponential_decay, if_neg (by omega),
      Option.getD_some]
    simp

theorem C4_decay_contract_witness :
    decayed_weight Real.exp ⟨0, 1, 5⟩ 3 2 = 0 ∧
    decayed_weight Real.exp ⟨0, 1, 5⟩ 5 2 = 1 :=
  ⟨(C4_decay_contract ⟨0, 1, 5⟩ 3 2).1 (by decide),
   (C4_decay_contract ⟨0, 1, 5⟩ 3 2).2.2⟩

/-- C5: strict monotonicity of the decayed weight — with a positive decay
constant, of two query times at or after the creation time the later one
yields a strictly smaller current weight. -/
theorem C5_decay_strict_mono (e : Edge) (k : ℝ) (t1 t2 : ℕ)
    (hk : 0 < k) (h2 : e.time_of_creation ≤ t2) (h12 : t2 < t1) :
    decayed_weight Real.exp e t1 k < decayed_weight Real.exp e t2 k := by
  have h1 : e.time_of_creation ≤ t1 := le_trans h2 (le_of_lt h12)
  rw [decayed_weight, if_pos h1, decayed_weight, if_pos h2,
    exponential_decay, if_neg (by omega), exponential_decay, if_neg (by omega),
    Option.getD_some, Option.getD_some, one_mul, one_mul]
  apply Real.exp_lt_exp.mpr
  have hsub : t2 - e.time_of_creation < t1 - e.time_of_creation := by omega
  have hcast : ((t2 - e.time_of_creation : ℕ) : ℝ) <
      ((t1 - e.time_of_creation : ℕ) : ℝ) := by exact_mod_cast hsub
  nlinarith

theorem C5_decay_strict_mono_witness :
    decayed_weight Real.exp ⟨0, 0, 0⟩ 2 1 < decayed_weight Real.exp ⟨0, 0, 0⟩ 1 1 :=
  C5_decay_strict_mono ⟨0, 0, 0⟩ 1 2 1 one_pos (by decide) (by decide)

/-- C6: teleport correctness — for a positive node count, a fraction in
[0, 1], in-range experts, and a non-empty expert list whenever the
fraction is positive, the built vector has one entry per node, sums to
exactly 1, and with a positive fraction every expert's share strictly
exceeds every non-expert's share. -/
theorem C6_teleport_correctness (n : ℕ) (experts : List ℕ) (f : ℚ)
    (hn : 0 < n) (hrange : ∀ e ∈ experts, e < n)
    (hf0 : 0 ≤ f) (hf1 : f ≤ 1) (hne : 0 < f → experts ≠ []) :
    (build_teleportation_targets n experts f).length = n ∧
    (build_teleportation_targets n experts f).sum = 1 ∧
    (0 < f → ∀ i ∈ experts, ∀ j < n, j ∉ experts →
      (build_teleportation_targets n experts f).getD j 0 <
        (build_teleportation_targets n experts f).getD i 0) := by
  refine ⟨build_teleportation_targets_length n experts f, ?_, ?_⟩
  · refine build_teleportation_targets_sum n experts f hn hrange fun h => ?_
    by_contra hf
    exact hne (lt_of_le_of_ne hf0 (Ne.symm hf)) h
  · intro hf i hi j hj hjn
    rw [build_teleportation_targets_getD n experts f i (hrange i hi),
      build_teleportation_targets_getD n experts f j hj]
    have hcj : experts.count j = 0 := List.count_eq_zero.mpr hjn
    have hci : 0 < experts.count i := List.count_pos_iff.mpr hi
    have hlp : 0 < (experts.length : ℚ) := by
      have : experts ≠ [] := hne hf
      have : 0 < experts.length := List.length_pos.mpr this
      exact_mod_cast this
    have hbonus : 0 < (experts.count i : ℚ) * (f / (experts.length : ℚ)) := by
      have : (0 : ℚ) < (experts.count i : ℚ) := by exact_mod_cast hci
      exact mul_pos this (div_pos hf hlp)
    rw [hcj]
    push_cast
    linarith

theorem C6_teleport_correctness_witness :
    (build_teleportation_targets 2 [0] 1).length = 2 ∧
    (build_teleportation_targets 2 [0] 1).sum = 1 ∧
    (0 < (1 : ℚ) → ∀ i ∈ ([0] : List ℕ), ∀ j < 2, j ∉ ([0] : List ℕ) →
      (build_teleportation_targets 2 [0] 1).getD j 0 <
        (build_teleportation_targets 2 [0] 1).getD i 0) :=
  C6_teleport_correctness 2 [0] 1 (by decide) (by decide) (by decide)
    (by decide) (by decide)

/-- C7 counterexample: the teleport construction applied to the expert
list [0, 0, 1] differs from its application to the de-duplicated list —
duplicate entries are not idempotent. -/
theorem C7_duplicate_counterexample :
    build_teleportation_targets 3 [0, 0, 1] (4/5) ≠
      build_teleportation_targets 3 ([0, 0, 1].dedup) (4/5) := by
  norm_num [build_teleportation_targets, bumpList, List.dedup, List.replicate,
    List.set_cons_zero, List.set_cons_succ]

/-- C7 (amended): each node's teleport entry is the base share plus its
multiplicity in the expert list times `f / length` — a node listed twice
receives a double bonus share, so duplicates are not de-duplicated. -/
theorem C7_duplicate_bonus_multiplicity (n : ℕ) (experts : List ℕ) (f : ℚ)
    (i : ℕ) (hi : i < n) :
    (build_teleportation_targets n experts f).getD i 0 =
      (1 - f) / (n : ℚ) + (experts.count i : ℚ) * (f / (experts.length : ℚ)) :=
  build_teleportation_targets_getD n experts f i hi

theorem C7_duplicate_bonus_multiplicity_witness :
    (build_teleportation_targets 3 [0, 0, 1] (4/5)).getD 0 0 =
      (1 - 4/5) / ((3 : ℕ) : ℚ) +
        ((([0, 0, 1] : List ℕ).count 0 : ℕ) : ℚ) *
          ((4/5) / ((([0, 0, 1] : List ℕ).length : ℕ) : ℚ)) :=
  C7_duplicate_bonus_multiplicity 3 [0, 0, 1] (4/5) 0 (by decide)

/-- C8 counterexample: with expert fraction 4/5 and an empty expert list
the construction does not fail — it returns the base-only vector, whose
sum is 1/5, not 1. -/
theorem C8_empty_experts_counterexample :
    build_teleportation_targets 2 [] (4/5) = [1/10, 1/10] ∧
      (build_teleportation_targets 2 [] (4/5)).sum ≠ 1 := by
  constructor <;>
    norm_num [build_teleportation_targets, List.replicate]

/-- C8 (amended): with an empty expert list no error is signalled for any
fraction — the construction returns the base-only vector with every
entry `(1 - f) / n`, summing to `1 - f` rather than 1. -/
theorem C8_empty_experts_behavior (n : ℕ) (f : ℚ) (hn : 0 < n) :
    build_teleportation_targets n [] f =
      List.replicate n ((1 - f) / (n : ℚ)) ∧
    (build_teleportation_targets n [] f).sum = 1 - f := by
  have hnz : (n : ℚ) ≠ 0 := Nat.cast_ne_zero.mpr hn.ne'
  refine ⟨rfl, ?_⟩
  show (List.replicate n ((1 - f) / (n : ℚ))).sum = 1 - f
  rw [List.sum_replicate, nsmul_eq_mul]
  field_simp

theorem C8_empty_experts_behavior_witness :
    build_teleportation_targets 2 [] (4/5) =
      List.replicate 2 ((1 - 4/5) / ((2 : ℕ) : ℚ)) ∧
    (build_teleportation_targets 2 [] (4/5)).sum = 1 - 4/5 :=
  C8_empty_experts_behavior 2 (4/5) (by decide)

/-- C9 counterexample: `pagerank_variant` performs no fail-fast
validation — run with a damping factor of 2 (outside [0, 1]) it returns
the full rank vector [1], and run with a weight vector shorter than the
edge list it silently truncates and returns [1/2, 1/2]. -/
theorem C9_no_validation_counterexample :
    pagerank_variant [] [] 1 1 2 [1] 0 = 1 ∧
    pagerank_variant [⟨0, 0, 0⟩] [] 2 1 (1/2) [1/2, 1/2] 0 = 1/2 := by
  constructor <;>
    norm_num [pagerank_variant, pagerank_step, edge_pass, dangling_rank, bump,
      initial_outflow_values, Function.update, Finset.sum_range_succ]

/-- C9 (amended): the engine validates nothing and aborts never — it is a
total function, and for an arbitrary damping factor (no range check) on a
structurally well-formed input it returns a completed, mass-conserving
rank vector instead of signalling an error. -/
theorem C9_runs_without_validation (edges : List Edge) (weights : List ℚ)
    (n : ℕ) (teleport : List ℚ)
    (hn : 0 < n) (hsrc : ∀ e ∈ edges, e.source < n)
    (htgt : ∀ e ∈ edges, e.target < n)
    (htl : teleport.length = n) (hts : teleport.sum = 1) :
    ∀ (d : ℚ) (k : ℕ),
      ∑ j in Finset.range n, pagerank_variant edges weights n k d teleport j = 1 :=
  fun d k => pagerank_sum_eq_one edges weights n k d teleport hn hsrc htgt htl hts

theorem C9_runs_without_validation_witness :
    ∑ j in Finset.range 1, pagerank_variant [] [] 1 1 2 [1] j = 1 :=
  C9_runs_without_validation [] [] 1 [1] (by decide) (by decide) (by decide)
    (by decide) (by simp) 2 1

/-- C10: `exponential_decay` is partial in the raw query time — it is
undefined (Rust: `usize` underflow panic) when `t1 < t0` and defined
whenever `t1 ≥ t0`; the sole call site guards with
`time_of_creation ≤ time`, so the guarded computation never hits the
undefined case, and for a not-yet-created edge the call site itself
returns 0. -/
theorem C10_decay_partial_guarded (t1 t0 : ℕ) (w k : ℝ) (e : Edge)
    (time : ℕ) (k2 : ℝ) :
    (t1 < t0 → exponential_decay Real.exp t1 t0 w k = none) ∧
    (t0 ≤ t1 → (exponential_decay Real.exp t1 t0 w k).isSome = true) ∧
    (e.time_of_creation ≤ time →
      (exponential_decay Real.exp time e.time_of_creation 1 k2).isSome = true) ∧
    (time < e.time_of_creation → decayed_weight Real.exp e time k2 = 0) := by
  refine ⟨fun h => ?_, fun h => ?_, fun h => ?_, fun h => ?_⟩
  · rw [exponential_decay, if_pos h]
  · rw [exponential_decay, if_neg (by omega)]
    rfl
  · rw [exponential_decay, if_neg (by omega)]
    rfl
  · rw [decayed_weight, if_neg (by omega)]

theorem C10_decay_partial_guarded_witness :
    exponential_decay Real.exp 0 1 (1 : ℝ) 1 = none ∧
    (exponential_decay Real.exp 1 1 (1 : ℝ) 1).isSome = true ∧
    decayed_weight Real.exp ⟨0, 0, 5⟩ 3 (1 : ℝ) = 0 :=
  ⟨(C10_decay_partial_guarded 0 1 1 1 ⟨0, 0, 5⟩ 3 1).1 (by decide),
   (C10_decay_partial_guarded 1 1 1 1 ⟨0, 0, 5⟩ 3 1).2.1 (by decide),
   (C10_decay_partial_guarded 0 1 1 1 ⟨0, 0, 5⟩ 3 1).2.2.2 (by decide)⟩

end TrustFlow
